import Mathlib

/-!
Verification development for a Rust directed-graph library (`src/lib.rs`):
a generic graph container (`Node<T>` / `NodeRef<T>` / `DirectedGraph<T>`)
with Kahn's-algorithm topological sorting.

Embedding notes.
A `NodeRef<T>` is `Rc<RefCell<Node<T>>>`: a shared handle whose equality and
hash are the address of the underlying allocation.  We embed the heap as an
arena: the graph state is a list of nodes, and a handle is the index of the
node's slot (each `Rc::new` in `add_node` allocates a fresh slot, so fresh
indices model fresh addresses; pointer equality is index equality).
All public-API graphs have this shape, since `NodeRef::new` is private and
nodes are only created through `DirectedGraph::add_node`.

The `HashSet` ready set of `topological_sort` has an unspecified iteration
order, so `s.iter().next().unwrap()` is nondeterministic.  We model it with
an explicit selection function `pick : SortState α → Nat` constrained by
`ValidPick` (it must return a member of the current ready set); theorems
quantify over all such functions, covering every iteration order the Rust
`HashSet` can exhibit.  The `while` loop is embedded with explicit fuel
`g.nodes.length`; we prove below (`sortRun_s_nil`) that for well-formed
graphs the ready set is exhausted within that many iterations, which is
exactly when the Rust loop exits.
-/

namespace RustDag

/-- `Node<T>`: payload plus incoming/outgoing adjacency lists.  Adjacency
entries are handles, i.e. arena indices. -/
structure Node (α : Type) where
  data : α
  incoming : List Nat
  outgoing : List Nat
deriving DecidableEq

/-- `Node::new`: fresh node with empty adjacency lists. -/
def Node.new (x : α) : Node α := ⟨x, [], []⟩

/-- `DirectedGraph<T>`: the arena of all nodes created through `add_node`,
in creation order.  Slot `i` of `nodes` is the allocation the handle `i`
points to. -/
structure DirectedGraph (α : Type) where
  nodes : List (Node α)
deriving DecidableEq

/-- `DirectedGraph::default()`: empty graph. -/
def emptyGraph (α : Type) : DirectedGraph α := ⟨[]⟩

/-- `Clone for NodeRef`: `Rc::clone` copies the pointer; the clone aliases
the same allocation, so in the arena model it is the same index. -/
def cloneRef (h : Nat) : Nat := h

/-- `PartialEq for NodeRef`: `self.ptr.as_ptr().eq(&rhs.ptr.as_ptr())`,
i.e. pointer (arena-slot) equality. -/
def refEq (a b : Nat) : Bool := a == b

/-- `Hash for NodeRef`: `self.ptr.as_ptr().hash(state)` feeds the pointer
value (the arena slot) to the hasher; this is the value that determines the
hash. -/
def refHashInput (a : Nat) : Nat := a

/-- `DirectedGraph::add_node`: allocate a fresh node, retain a handle in
`self.nodes`, return (the graph and) a clone of the handle. -/
def add_node (g : DirectedGraph α) (x : α) : DirectedGraph α × Nat :=
  (⟨g.nodes ++ [Node.new x]⟩, cloneRef g.nodes.length)

/-- In-place update of one arena slot (the effect of mutating through
`RefCell::borrow_mut` on the node at index `i`). -/
def listModify (f : β → β) : Nat → List β → List β
  | _, [] => []
  | 0, b :: bs => f b :: bs
  | i + 1, b :: bs => b :: listModify f i bs

/-- `DirectedGraph::add_edge`: push `to` onto `from.outgoing`, then push
`from` onto `to.incoming`, unconditionally. -/
def add_edge (g : DirectedGraph α) (u v : Nat) : DirectedGraph α :=
  ⟨listModify (fun nd => { nd with incoming := nd.incoming ++ [u] }) v
      (listModify (fun nd => { nd with outgoing := nd.outgoing ++ [v] }) u g.nodes)⟩

/-- `remove_item`: `vec.retain(|e| e != item)` — keeps exactly the entries
different from `item` (removing every occurrence). -/
def remove_item (l : List Nat) (x : Nat) : List Nat := l.filter (fun e => e != x)

/-- Incoming list of the node in slot `i` (empty for a nonexistent slot). -/
def incomingOf (nodes : List (Node α)) (i : Nat) : List Nat :=
  ((nodes.get? i).map Node.incoming).getD []

/-- Outgoing list of the node in slot `i` (empty for a nonexistent slot). -/
def outgoingOf (nodes : List (Node α)) (i : Nat) : List Nat :=
  ((nodes.get? i).map Node.outgoing).getD []

/-- Payload of the node in slot `i`. -/
def dataOf (nodes : List (Node α)) (i : Nat) : Option α :=
  (nodes.get? i).map Node.data

/-- The `remove_item`-on-slot-`m` update, as used by the sort's inner loop:
`remove_item(&mut m.ptr.borrow_mut().incoming, &n)`. -/
def removeIncoming (n m : Nat) (nodes : List (Node α)) : List (Node α) :=
  listModify (fun nd => { nd with incoming := remove_item nd.incoming n }) m nodes

/-- State of Kahn's algorithm: the (mutated) arena, the ready set `s`
(a `HashSet`, modelled as a duplicate-free list), and the result vector. -/
structure SortState (α : Type) where
  nodes : List (Node α)
  s : List Nat
  result : List Nat
deriving DecidableEq

/-- `HashSet::insert`: no-op when the element is already present. -/
def sInsert (s : List Nat) (x : Nat) : List Nat := if x ∈ s then s else s ++ [x]

/-- Body of `for m in &n.ptr.borrow().outgoing`: remove every occurrence of
`n` from `m.incoming` (`remove_item`), then if `m.incoming` is now empty,
insert `m` into the ready set. -/
def edgeStep (n : Nat) (st : SortState α) (m : Nat) : SortState α :=
  if incomingOf (removeIncoming n m st.nodes) m = [] then
    ⟨removeIncoming n m st.nodes, sInsert st.s m, st.result⟩
  else ⟨removeIncoming n m st.nodes, st.s, st.result⟩

/-- One iteration of the `while` loop, processing the chosen node `n`:
remove `n` from `s`, push it onto `result`, then run `edgeStep` for each
entry of `n`'s outgoing list. -/
def sortStepN (st : SortState α) (n : Nat) : SortState α :=
  (outgoingOf st.nodes n).foldl (edgeStep n) ⟨st.nodes, st.s.erase n, st.result ++ [n]⟩

/-- One loop iteration where `n` is `s.iter().next().unwrap()` under the
selection function `pick`. -/
def sortStep (pick : SortState α → Nat) (st : SortState α) : SortState α :=
  sortStepN st (pick st)

/-- The `while !s.is_empty()` loop, with explicit fuel. -/
def sortRun (pick : SortState α → Nat) : Nat → SortState α → SortState α
  | 0, st => st
  | fuel + 1, st => if st.s = [] then st else sortRun pick fuel (sortStep pick st)

/-- Initial state: `s` collects all nodes whose incoming list is empty. -/
def initState (g : DirectedGraph α) : SortState α :=
  ⟨g.nodes, (List.range g.nodes.length).filter (fun i => (incomingOf g.nodes i).isEmpty), []⟩

/-- `DirectedGraph::topological_sort`.  After the loop drains, if any node
of the original node list still has a nonempty incoming list, return `None`;
otherwise return the accumulated result. -/
def topological_sort (pick : SortState α → Nat) (g : DirectedGraph α) : Option (List Nat) :=
  if (List.range g.nodes.length).all
      (fun i => (incomingOf (sortRun pick g.nodes.length (initState g)).nodes i).isEmpty)
  then some (sortRun pick g.nodes.length (initState g)).result
  else none

/-- `s.iter().next()`: `none` exactly when the set is empty, otherwise the
element the iteration order yields first. -/
def iterNext (pick : SortState α → Nat) (st : SortState α) : Option Nat :=
  if st.s.isEmpty then none else some (pick st)

/-- States at which the loop body executes (loop-entry states with a
nonempty ready set). -/
def runTrace (pick : SortState α → Nat) : Nat → SortState α → List (SortState α)
  | 0, _ => []
  | fuel + 1, st => if st.s = [] then [] else st :: runTrace pick fuel (sortStep pick st)

/-- All states the loop passes through, including the final one. -/
def runStates (pick : SortState α → Nat) : Nat → SortState α → List (SortState α)
  | 0, st => [st]
  | fuel + 1, st => if st.s = [] then [st] else st :: runStates pick fuel (sortStep pick st)

/-- A selection function is valid when it returns a member of the (nonempty)
ready set — what `s.iter().next().unwrap()` always does. -/
def ValidPick (pick : SortState α → Nat) : Prop :=
  ∀ st : SortState α, st.s ≠ [] → pick st ∈ st.s

/-- One concrete valid selection function (used to instantiate theorems). -/
def headPick (st : SortState α) : Nat := st.s.headD 0

/-- There is an edge `u → v` when `v` is in `u`'s outgoing list. -/
def Edge (g : DirectedGraph α) (u v : Nat) : Prop := v ∈ outgoingOf g.nodes u

/-- All adjacency entries are valid arena indices. -/
def WFheap (nodes : List (Node α)) : Prop :=
  ∀ i < nodes.length,
    (∀ j ∈ incomingOf nodes i, j < nodes.length) ∧
    (∀ j ∈ outgoingOf nodes i, j < nodes.length)

/-- Well-formed graph. -/
def WF (g : DirectedGraph α) : Prop := WFheap g.nodes

/-- Incoming and outgoing lists describe the same edge multiset, as
`add_edge` guarantees: the multiplicity of `v` in `u.outgoing` equals the
multiplicity of `u` in `v.incoming`. -/
def ConsistentHeap (nodes : List (Node α)) : Prop :=
  ∀ u < nodes.length, ∀ v < nodes.length,
    (outgoingOf nodes u).count v = (incomingOf nodes v).count u

/-- Consistent graph (every API-built graph is). -/
def Consistent (g : DirectedGraph α) : Prop := ConsistentHeap g.nodes

/-- The graph has a directed cycle: some node reaches itself through at
least one edge (a self-loop is the one-step case). -/
def HasCycle (g : DirectedGraph α) : Prop := ∃ v, Relation.TransGen (Edge g) v v

/-- Acyclic graph. -/
def Acyclic (g : DirectedGraph α) : Prop := ∀ v, ¬ Relation.TransGen (Edge g) v v

/-- Index of the first occurrence of `x` (length of the list if absent). -/
def idxOf (x : Nat) : List Nat → Nat
  | [] => 0
  | a :: l => if a = x then 0 else idxOf x l + 1

/-- The invariant of the `while` loop, relative to the original heap `G`:
the outgoing lists never change, each incoming list is the original one with
the already-output predecessors removed, the ready set and the result are
duplicate-free and disjoint, members of the ready set are exactly the
not-yet-output nodes with empty incoming lists, and the result is closed
under predecessors, in order. -/
structure Inv (G : List (Node α)) (st : SortState α) : Prop where
  len_eq : st.nodes.length = G.length
  outg : ∀ i, outgoingOf st.nodes i = outgoingOf G i
  inc : ∀ i, incomingOf st.nodes i =
    (incomingOf G i).filter (fun j => decide (j ∉ st.result))
  res_nd : st.result.Nodup
  s_nd : st.s.Nodup
  s_res : ∀ i ∈ st.s, i ∉ st.result
  s_lt : ∀ i ∈ st.s, i < G.length
  res_lt : ∀ i ∈ st.result, i < G.length
  s_inc : ∀ i ∈ st.s, incomingOf st.nodes i = []
  complete : ∀ i, i < G.length → i ∉ st.result → incomingOf st.nodes i = [] → i ∈ st.s
  order : ∀ u v, v ∈ outgoingOf G u → v ∈ st.result →
    u ∈ st.result ∧ idxOf u st.result < idxOf v st.result

/-- The diamond DAG of the repository's test: nodes `A B C D` (handles
`0 1 2 3`), edges `A→B`, `A→C`, `B→D`, `C→D`. -/
def diamond : DirectedGraph Char :=
  add_edge (add_edge (add_edge (add_edge
    (add_node (add_node (add_node (add_node (emptyGraph Char) 'A').1 'B').1 'C').1 'D').1
    0 1) 0 2) 1 3) 2 3

/-- Two nodes with a single edge `0 → 1`. -/
def chain2 : DirectedGraph Nat :=
  add_edge (add_node (add_node (emptyGraph Nat) 10).1 11).1 0 1

/-- Two nodes with a two-cycle `0 → 1 → 0`. -/
def cyc2 : DirectedGraph Nat :=
  add_edge (add_edge (add_node (add_node (emptyGraph Nat) 20).1 21).1 0 1) 1 0

/-- Two nodes with the parallel edge `0 → 1` added twice. -/
def par2 : DirectedGraph Nat :=
  add_edge (add_edge (add_node (add_node (emptyGraph Nat) 30).1 31).1 0 1) 0 1

/-- Two nodes, no edges. -/
def pair2 : DirectedGraph Nat :=
  (add_node (add_node (emptyGraph Nat) 5).1 6).1

/-- Graphs reachable through the public API: start empty, add nodes, add
edges between existing handles (all handles a caller can hold are indices of
already-created nodes, since `NodeRef::new` is private). -/
inductive Built : DirectedGraph α → Prop where
  | empty : Built (emptyGraph α)
  | node (g : DirectedGraph α) (x : α) : Built g → Built (add_node g x).1
  | edge (g : DirectedGraph α) (u v : Nat) : Built g → u < g.nodes.length →
      v < g.nodes.length → Built (add_edge g u v)

instance (nodes : List (Node α)) : Decidable (WFheap nodes) := by
  unfold WFheap; infer_instance

instance (g : DirectedGraph α) : Decidable (WF g) := by
  unfold WF; infer_instance

instance (nodes : List (Node α)) : Decidable (ConsistentHeap nodes) := by
  unfold ConsistentHeap; infer_instance

instance (g : DirectedGraph α) : Decidable (Consistent g) := by
  unfold Consistent; infer_instance

instance (g : DirectedGraph α) (u v : Nat) : Decidable (Edge g u v) := by
  unfold Edge; infer_instance

/-! ### Basic lemmas about the heap primitives -/

theorem length_listModify (f : β → β) (i : Nat) (l : List β) :
    (listModify f i l).length = l.length := by
  induction l generalizing i with
  | nil => cases i <;> rfl
  | cons b bs ih => cases i <;> simp [listModify, ih]

theorem get?_listModify_self (f : β → β) (i : Nat) (l : List β) :
    (listModify f i l).get? i = (l.get? i).map f := by
  induction l generalizing i with
  | nil => cases i <;> rfl
  | cons b bs ih =>
    cases i with
    | zero => rfl
    | succ n =>
      show (b :: listModify f n bs).get? (n + 1) = ((b :: bs).get? (n + 1)).map f
      rw [List.get?_cons_succ, List.get?_cons_succ]
      exact ih n

theorem get?_listModify_ne (f : β → β) {i j : Nat} (l : List β) (h : j ≠ i) :
    (listModify f i l).get? j = l.get? j := by
  induction l generalizing i j with
  | nil => cases i <;> rfl
  | cons b bs ih =>
    cases i with
    | zero =>
      cases j with
      | zero => exact absurd rfl h
      | succ j =>
        show (f b :: bs).get? (j + 1) = (b :: bs).get? (j + 1)
        rw [List.get?_cons_succ, List.get?_cons_succ]
    | succ i =>
      cases j with
      | zero => rfl
      | succ j =>
        show (b :: listModify f i bs).get? (j + 1) = (b :: bs).get? (j + 1)
        rw [List.get?_cons_succ, List.get?_cons_succ]
        exact ih (fun hji => h (by omega))

theorem incomingOf_of_le {nodes : List (Node α)} {i : Nat} (h : nodes.length ≤ i) :
    incomingOf nodes i = [] := by
  unfold incomingOf
  rw [List.get?_eq_none.mpr h]
  rfl

theorem outgoingOf_of_le {nodes : List (Node α)} {i : Nat} (h : nodes.length ≤ i) :
    outgoingOf nodes i = [] := by
  unfold outgoingOf
  rw [List.get?_eq_none.mpr h]
  rfl

theorem lt_of_mem_incomingOf {nodes : List (Node α)} {i j : Nat}
    (h : j ∈ incomingOf nodes i) : i < nodes.length := by
  by_contra hle
  rw [incomingOf_of_le (by omega)] at h
  exact absurd h (List.not_mem_nil j)

theorem lt_of_mem_outgoingOf {nodes : List (Node α)} {i j : Nat}
    (h : j ∈ outgoingOf nodes i) : i < nodes.length := by
  by_contra hle
  rw [outgoingOf_of_le (by omega)] at h
  exact absurd h (List.not_mem_nil j)

theorem length_removeIncoming (n m : Nat) (nodes : List (Node α)) :
    (removeIncoming n m nodes).length = nodes.length :=
  length_listModify _ _ _

theorem incomingOf_removeIncoming_self (n m : Nat) (nodes : List (Node α)) :
    incomingOf (removeIncoming n m nodes) m = remove_item (incomingOf nodes m) n := by
  unfold incomingOf removeIncoming
  rw [get?_listModify_self]
  cases nodes.get? m <;> rfl

theorem incomingOf_removeIncoming_ne (n : Nat) {m j : Nat} (nodes : List (Node α))
    (h : j ≠ m) : incomingOf (removeIncoming n m nodes) j = incomingOf nodes j := by
  unfold incomingOf removeIncoming
  rw [get?_listModify_ne _ _ h]

theorem outgoingOf_removeIncoming (n m : Nat) (nodes : List (Node α)) (j : Nat) :
    outgoingOf (removeIncoming n m nodes) j = outgoingOf nodes j := by
  unfold outgoingOf removeIncoming
  rcases eq_or_ne j m with rfl | h
  · rw [get?_listModify_self]
    cases nodes.get? j <;> rfl
  · rw [get?_listModify_ne _ _ h]

theorem mem_remove_item {l : List Nat} {x n : Nat} :
    x ∈ remove_item l n ↔ x ∈ l ∧ x ≠ n := by
  simp [remove_item, List.mem_filter]

theorem remove_item_of_not_mem {l : List Nat} {n : Nat} (h : n ∉ l) :
    remove_item l n = l := by
  unfold remove_item
  apply List.filter_eq_self.mpr
  intro a ha
  simp only [bne_iff_ne, ne_eq, decide_eq_true_eq]
  exact fun hcn => h (hcn ▸ ha)

theorem remove_item_idem (l : List Nat) (n : Nat) :
    remove_item (remove_item l n) n = remove_item l n :=
  remove_item_of_not_mem (fun h => (mem_remove_item.mp h).2 rfl)

theorem count_remove_item_self (l : List Nat) (n : Nat) :
    (remove_item l n).count n = 0 :=
  List.count_eq_zero.mpr (fun h => (mem_remove_item.mp h).2 rfl)

theorem mem_sInsert {s : List Nat} {x y : Nat} :
    x ∈ sInsert s y ↔ x = y ∨ x ∈ s := by
  unfold sInsert
  split
  · constructor
    · exact fun h => Or.inr h
    · rintro (rfl | h) <;> assumption
  · simp [or_comm]

theorem sInsert_nodup {s : List Nat} (h : s.Nodup) (y : Nat) : (sInsert s y).Nodup := by
  unfold sInsert
  split
  · exact h
  · next hy => simp [List.nodup_append, h, hy, List.disjoint_singleton]

theorem subset_sInsert (s : List Nat) (y : Nat) : ∀ x ∈ s, x ∈ sInsert s y := by
  intro x hx
  exact mem_sInsert.mpr (Or.inr hx)

/-! ### Lemmas about `idxOf` -/

theorem idxOf_lt_length {x : Nat} : ∀ {l : List Nat}, x ∈ l → idxOf x l < l.length := by
  intro l
  induction l with
  | nil => intro h; exact absurd h (List.not_mem_nil x)
  | cons a l ih =>
    intro h
    by_cases hax : a = x
    · simp [idxOf, hax]
    · rcases List.mem_cons.mp h with rfl | h
      · exact absurd rfl hax
      · simpa [idxOf, hax] using ih h

theorem idxOf_append_of_mem {x : Nat} : ∀ {l₁ : List Nat} (l₂ : List Nat), x ∈ l₁ →
    idxOf x (l₁ ++ l₂) = idxOf x l₁ := by
  intro l₁
  induction l₁ with
  | nil => intro l₂ h; exact absurd h (List.not_mem_nil x)
  | cons a l ih =>
    intro l₂ h
    by_cases hax : a = x
    · simp [idxOf, hax]
    · rcases List.mem_cons.mp h with rfl | h
      · exact absurd rfl hax
      · simp [idxOf, hax, ih l₂ h]

theorem idxOf_append_self {x : Nat} : ∀ {l : List Nat}, x ∉ l →
    idxOf x (l ++ [x]) = l.length := by
  intro l
  induction l with
  | nil => intro _; simp [idxOf]
  | cons a l ih =>
    intro h
    have hax : a ≠ x := fun hc => h (hc ▸ List.mem_cons_self a l)
    simp [idxOf, hax, ih (fun hc => h (List.mem_cons_of_mem a hc))]

/-! ### Lemmas about one `edgeStep` -/

theorem edgeStep_result (n : Nat) (st : SortState α) (m : Nat) :
    (edgeStep n st m).result = st.result := by
  unfold edgeStep; split <;> rfl

theorem edgeStep_nodes (n : Nat) (st : SortState α) (m : Nat) :
    (edgeStep n st m).nodes = removeIncoming n m st.nodes := by
  unfold edgeStep; split <;> rfl

theorem edgeStep_s_of_empty {n : Nat} {st : SortState α} {m : Nat}
    (h : incomingOf (removeIncoming n m st.nodes) m = []) :
    (edgeStep n st m).s = sInsert st.s m := by
  unfold edgeStep; rw [if_pos h]

theorem edgeStep_s_of_nonempty {n : Nat} {st : SortState α} {m : Nat}
    (h : incomingOf (removeIncoming n m st.nodes) m ≠ []) :
    (edgeStep n st m).s = st.s := by
  unfold edgeStep; rw [if_neg h]

theorem edgeStep_s_mono (n : Nat) (st : SortState α) (m : Nat) :
    ∀ x ∈ st.s, x ∈ (edgeStep n st m).s := by
  intro x hx
  by_cases h : incomingOf (removeIncoming n m st.nodes) m = []
  · rw [edgeStep_s_of_empty h]; exact subset_sInsert _ _ x hx
  · rw [edgeStep_s_of_nonempty h]; exact hx

theorem edgeStep_s_nodup (n : Nat) (st : SortState α) (m : Nat) (h : st.s.Nodup) :
    (edgeStep n st m).s.Nodup := by
  by_cases hc : incomingOf (removeIncoming n m st.nodes) m = []
  · rw [edgeStep_s_of_empty hc]; exact sInsert_nodup h m
  · rw [edgeStep_s_of_nonempty hc]; exact h

theorem edgeStep_s_sub (n : Nat) (st : SortState α) (m : Nat) :
    ∀ x ∈ (edgeStep n st m).s,
      x ∈ st.s ∨ (x = m ∧ incomingOf (edgeStep n st m).nodes m = []) := by
  intro x hx
  by_cases h : incomingOf (removeIncoming n m st.nodes) m = []
  · rw [edgeStep_s_of_empty h] at hx
    rcases mem_sInsert.mp hx with rfl | hx
    · exact Or.inr ⟨rfl, by rw [edgeStep_nodes]; exact h⟩
    · exact Or.inl hx
  · rw [edgeStep_s_of_nonempty h] at hx; exact Or.inl hx

/-! ### The inner `for m in n.outgoing` loop, as a fold -/

theorem foldl_edgeStep_spec (n : Nat) :
    ∀ (ms : List Nat) (st : SortState α),
      ((ms.foldl (edgeStep n) st).result = st.result) ∧
      ((ms.foldl (edgeStep n) st).nodes.length = st.nodes.length) ∧
      (∀ i, outgoingOf (ms.foldl (edgeStep n) st).nodes i = outgoingOf st.nodes i) ∧
      (∀ i ∈ ms, incomingOf (ms.foldl (edgeStep n) st).nodes i =
        remove_item (incomingOf st.nodes i) n) ∧
      (∀ i, i ∉ ms → incomingOf (ms.foldl (edgeStep n) st).nodes i =
        incomingOf st.nodes i) ∧
      (∀ x ∈ st.s, x ∈ (ms.foldl (edgeStep n) st).s) ∧
      (∀ x ∈ (ms.foldl (edgeStep n) st).s, x ∈ st.s ∨
        (x ∈ ms ∧ incomingOf (ms.foldl (edgeStep n) st).nodes x = [])) ∧
      (∀ m ∈ ms, incomingOf (ms.foldl (edgeStep n) st).nodes m = [] →
        m ∈ (ms.foldl (edgeStep n) st).s) ∧
      (st.s.Nodup → (ms.foldl (edgeStep n) st).s.Nodup) := by
  intro ms
  induction ms with
  | nil =>
    intro st
    refine ⟨rfl, rfl, fun i => rfl, ?_, fun i _ => rfl, fun x hx => hx, ?_, ?_, fun h => h⟩
    · intro i hi; exact absurd hi (List.not_mem_nil i)
    · intro x hx; exact Or.inl hx
    · intro m hm; exact absurd hm (List.not_mem_nil m)
  | cons m ms ih =>
    intro st
    have hfold : (m :: ms).foldl (edgeStep n) st = ms.foldl (edgeStep n) (edgeStep n st m) :=
      rfl
    obtain ⟨hres, hlen, houtg, hincm, hincn, hsmono, hssub, hsins, hsnd⟩ :=
      ih (edgeStep n st m)
    have hst1nodes : (edgeStep n st m).nodes = removeIncoming n m st.nodes :=
      edgeStep_nodes n st m
    have hst1incm : incomingOf (edgeStep n st m).nodes m =
        remove_item (incomingOf st.nodes m) n := by
      rw [hst1nodes]; exact incomingOf_removeIncoming_self n m st.nodes
    have hst1incn : ∀ j, j ≠ m → incomingOf (edgeStep n st m).nodes j =
        incomingOf st.nodes j := by
      intro j hj
      rw [hst1nodes]; exact incomingOf_removeIncoming_ne n st.nodes hj
    rw [hfold]
    refine ⟨by rw [hres, edgeStep_result], by rw [hlen, hst1nodes, length_removeIncoming],
      ?_, ?_, ?_, ?_, ?_, ?_, ?_⟩
    · intro i
      rw [houtg i, hst1nodes, outgoingOf_removeIncoming]
    · intro i hi
      by_cases him : i ∈ ms
      · rw [hincm i him]
        rcases eq_or_ne i m with rfl | hne
        · rw [hst1incm, remove_item_idem]
        · rw [hst1incn i hne]
      · have : i = m := by
          rcases List.mem_cons.mp hi with h | h
          · exact h
          · exact absurd h him
        subst this
        rw [hincn i him, hst1incm]
    · intro i hi
      have him : i ∉ ms := fun h => hi (List.mem_cons_of_mem m h)
      have hinm : i ≠ m := fun h => hi (h ▸ List.mem_cons_self m ms)
      rw [hincn i him, hst1incn i hinm]
    · intro x hx
      exact hsmono x (edgeStep_s_mono n st m x hx)
    · intro x hx
      rcases hssub x hx with hx1 | ⟨hxms, hxinc⟩
      · rcases edgeStep_s_sub n st m x hx1 with hx0 | ⟨rfl, hxe⟩
        · exact Or.inl hx0
        · refine Or.inr ⟨List.mem_cons_self x ms, ?_⟩
          by_cases hxm : x ∈ ms
          · rw [hincm x hxm, hxe]
            rfl
          · rw [hincn x hxm, hxe]
      · exact Or.inr ⟨List.mem_cons_of_mem m hxms, hxinc⟩
    · intro m' hm' hincF
      by_cases hm'ms : m' ∈ ms
      · exact hsins m' hm'ms hincF
      · have : m' = m := by
          rcases List.mem_cons.mp hm' with h | h
          · exact h
          · exact absurd h hm'ms
        subst this
        have h1 : incomingOf (edgeStep n st m').nodes m' = [] := by
          rw [← hincn m' hm'ms]; exact hincF
        have h2 : m' ∈ (edgeStep n st m').s := by
          rw [edgeStep_s_of_empty (by rw [← hst1nodes]; exact h1)]
          exact mem_sInsert.mpr (Or.inl rfl)
        exact hsmono m' h2
    · intro h
      exact hsnd (edgeStep_s_nodup n st m h)

/-! ### The loop invariant of Kahn's algorithm -/

theorem filter_keep_append (l res : List Nat) (n : Nat) :
    remove_item (l.filter fun j => decide (j ∉ res)) n =
      l.filter fun j => decide (j ∉ res ++ [n]) := by
  unfold remove_item
  rw [List.filter_filter]
  apply List.filter_congr
  intro a _
  by_cases h1 : a ∈ res <;> by_cases h2 : a = n <;> simp [h1, h2, List.mem_append]

theorem consistent_mem {nodes : List (Node α)} (hc : ConsistentHeap nodes) {u v : Nat}
    (hu : u < nodes.length) (hv : v < nodes.length) :
    u ∈ incomingOf nodes v ↔ v ∈ outgoingOf nodes u := by
  rw [← List.count_pos_iff, ← List.count_pos_iff, hc u hu v hv]

theorem Inv_initState (g : DirectedGraph α) : Inv g.nodes (initState g) := by
  refine ⟨rfl, fun i => rfl, ?_, List.nodup_nil, (List.nodup_range _).filter _, ?_, ?_,
    ?_, ?_, ?_, ?_⟩
  · intro i
    show incomingOf g.nodes i =
      (incomingOf g.nodes i).filter (fun j => decide (j ∉ ([] : List Nat)))
    symm
    apply List.filter_eq_self.mpr
    intro a _
    simp
  · intro i _
    exact List.not_mem_nil i
  · intro i hi
    exact List.mem_range.mp (List.mem_of_mem_filter hi)
  · intro i hi
    exact absurd hi (List.not_mem_nil i)
  · intro i hi
    exact List.isEmpty_iff.mp (by simpa using (List.mem_filter.mp hi).2)
  · intro i hiN _ hiinc
    have hiinc' : incomingOf g.nodes i = [] := hiinc
    show i ∈ (List.range g.nodes.length).filter (fun i => (incomingOf g.nodes i).isEmpty)
    exact List.mem_filter.mpr ⟨List.mem_range.mpr hiN, by simp [List.isEmpty_iff, hiinc']⟩
  · intro u v _ hv
    exact absurd hv (List.not_mem_nil v)

/-- One loop iteration preserves the invariant.  This packages the heart of
Kahn's algorithm: the dequeued node `n` has an empty current incoming list,
so all of its original predecessors are already in the result. -/
theorem Inv_sortStepN {G : List (Node α)} (hwf : WFheap G) (hc : ConsistentHeap G)
    {st : SortState α} (hInv : Inv G st) {n : Nat} (hn : n ∈ st.s) :
    Inv G (sortStepN st n) := by
  have hnN : n < G.length := hInv.s_lt n hn
  have hnres : n ∉ st.result := hInv.s_res n hn
  have hincn : incomingOf st.nodes n = [] := hInv.s_inc n hn
  have hnself : n ∉ outgoingOf G n := by
    intro hmem
    have h1 : n ∈ incomingOf G n := (consistent_mem hc hnN hnN).mpr hmem
    have h2 : n ∈ incomingOf st.nodes n := by
      rw [hInv.inc n]
      exact List.mem_filter.mpr ⟨h1, by simpa using hnres⟩
    rw [hincn] at h2
    exact absurd h2 (List.not_mem_nil n)
  have hmsG : outgoingOf st.nodes n = outgoingOf G n := hInv.outg n
  obtain ⟨hres, hlen, houtg, hincm, hincn', hsmono, hssub, hsins, hsnd⟩ :=
    foldl_edgeStep_spec n (outgoingOf st.nodes n)
      ⟨st.nodes, st.s.erase n, st.result ++ [n]⟩
  dsimp only at hres hlen houtg hincm hincn' hsmono hssub hsins hsnd
  unfold sortStepN
  have hmem_ms : ∀ {i}, i ∈ outgoingOf st.nodes n → i ≠ n := by
    intro i hi hin
    exact hnself (hmsG ▸ hin ▸ hi)
  refine ⟨?_, ?_, ?_, ?_, ?_, ?_, ?_, ?_, ?_, ?_, ?_⟩
  · rw [hlen]
    exact hInv.len_eq
  · intro i
    rw [houtg i]
    exact hInv.outg i
  · intro i
    rw [hres]
    by_cases him : i ∈ outgoingOf st.nodes n
    · rw [hincm i him, hInv.inc i]
      exact filter_keep_append _ _ _
    · rw [hincn' i him, hInv.inc i]
      have hni : n ∉ incomingOf G i := by
        intro hmem
        have hiN : i < G.length := lt_of_mem_incomingOf hmem
        have : i ∈ outgoingOf G n := (consistent_mem hc hnN hiN).mp hmem
        exact him (hmsG ▸ this)
      apply List.filter_congr
      intro a ha
      have han : a ≠ n := fun h => hni (h ▸ ha)
      simp [List.mem_append, han]
  · rw [hres]
    simp [List.nodup_append, hInv.res_nd, hnres, List.disjoint_singleton]
  · exact hsnd (hInv.s_nd.erase n)
  · intro i hi
    rw [hres]
    rcases hssub i hi with hi1 | ⟨hims, _⟩
    · have hie : i ≠ n := (hInv.s_nd.mem_erase_iff.mp hi1).1
      have his : i ∈ st.s := (hInv.s_nd.mem_erase_iff.mp hi1).2
      have hires := hInv.s_res i his
      simp [List.mem_append, hires, hie]
    · have hie : i ≠ n := hmem_ms hims
      have hires : i ∉ st.result := by
        intro hmem
        exact hnres (hInv.order n i (hmsG ▸ hims) hmem).1
      simp [List.mem_append, hires, hie]
  · intro i hi
    rcases hssub i hi with hi1 | ⟨hims, _⟩
    · exact hInv.s_lt i (List.erase_subset _ _ hi1)
    · rw [hmsG] at hims
      exact (hwf n hnN).2 i hims
  · intro i hi
    rw [hres] at hi
    rcases List.mem_append.mp hi with hi | hi
    · exact hInv.res_lt i hi
    · have : i = n := by simpa using hi
      exact this ▸ hnN
  · intro i hi
    rcases hssub i hi with hi1 | ⟨_, hiinc⟩
    · have his : i ∈ st.s := List.erase_subset _ _ hi1
      have hold : incomingOf st.nodes i = [] := hInv.s_inc i his
      by_cases him : i ∈ outgoingOf st.nodes n
      · rw [hincm i him, hold]
        rfl
      · rw [hincn' i him]
        exact hold
    · exact hiinc
  · intro i hiN hires hiinc
    rw [hres] at hires
    have hi1 : i ∉ st.result := fun h => hires (List.mem_append.mpr (Or.inl h))
    have hi2 : i ≠ n := fun h => hires (List.mem_append.mpr (Or.inr (by simp [h])))
    by_cases him : i ∈ outgoingOf st.nodes n
    · exact hsins i him hiinc
    · have hold : incomingOf st.nodes i = [] := by
        rw [← hincn' i him]
        exact hiinc
      have his : i ∈ st.s := hInv.complete i hiN hi1 hold
      exact hsmono i (hInv.s_nd.mem_erase_iff.mpr ⟨hi2, his⟩)
  · intro u v huv hvres
    rw [hres] at hvres ⊢
    rcases List.mem_append.mp hvres with hv | hv
    · obtain ⟨hu, hlt⟩ := hInv.order u v huv hv
      refine ⟨List.mem_append.mpr (Or.inl hu), ?_⟩
      rw [idxOf_append_of_mem [n] hu, idxOf_append_of_mem [n] hv]
      exact hlt
    · have hv' : v = n := by simpa using hv
      subst hv'
      have huN : u < G.length := lt_of_mem_outgoingOf huv
      have hu_inc : u ∈ incomingOf G v := (consistent_mem hc huN hnN).mpr huv
      have hu_res : u ∈ st.result := by
        by_contra hu_not
        have : u ∈ incomingOf st.nodes v := by
          rw [hInv.inc v]
          exact List.mem_filter.mpr ⟨hu_inc, by simpa using hu_not⟩
        rw [hincn] at this
        exact absurd this (List.not_mem_nil u)
      refine ⟨List.mem_append.mpr (Or.inl hu_res), ?_⟩
      rw [idxOf_append_of_mem [v] hu_res, idxOf_append_self hnres]
      exact idxOf_lt_length hu_res

theorem sortStepN_result (st : SortState α) (n : Nat) :
    (sortStepN st n).result = st.result ++ [n] := by
  obtain ⟨hres, -, -, -, -, -, -, -, -⟩ :=
    foldl_edgeStep_spec n (outgoingOf st.nodes n)
      ⟨st.nodes, st.s.erase n, st.result ++ [n]⟩
  exact hres

theorem Inv_sortStep {G : List (Node α)} (hwf : WFheap G) (hc : ConsistentHeap G)
    {pick : SortState α → Nat} (hp : ValidPick pick) {st : SortState α}
    (hInv : Inv G st) (hne : st.s ≠ []) : Inv G (sortStep pick st) :=
  Inv_sortStepN hwf hc hInv (hp st hne)

theorem Inv_sortRun {G : List (Node α)} (hwf : WFheap G) (hc : ConsistentHeap G)
    {pick : SortState α → Nat} (hp : ValidPick pick) :
    ∀ (f : Nat) (st : SortState α), Inv G st → Inv G (sortRun pick f st) := by
  intro f
  induction f with
  | zero => intro st h; exact h
  | succ f ih =>
    intro st h
    rw [sortRun]
    split
    · exact h
    · next hne => exact ih _ (Inv_sortStep hwf hc hp h hne)

theorem Inv_runStates {G : List (Node α)} (hwf : WFheap G) (hc : ConsistentHeap G)
    {pick : SortState α → Nat} (hp : ValidPick pick) :
    ∀ (f : Nat) (st : SortState α), Inv G st →
      ∀ st' ∈ runStates pick f st, Inv G st' := by
  intro f
  induction f with
  | zero =>
    intro st h st' hst'
    rw [runStates] at hst'
    have : st' = st := by simpa using hst'
    exact this ▸ h
  | succ f ih =>
    intro st h st' hst'
    rw [runStates] at hst'
    split at hst'
    · have : st' = st := by simpa using hst'
      exact this ▸ h
    · next hne =>
      rcases List.mem_cons.mp hst' with rfl | hst'
      · exact h
      · exact ih _ (Inv_sortStep hwf hc hp h hne) st' hst'

theorem Inv_runTrace {G : List (Node α)} (hwf : WFheap G) (hc : ConsistentHeap G)
    {pick : SortState α → Nat} (hp : ValidPick pick) :
    ∀ (f : Nat) (st : SortState α), Inv G st →
      ∀ st' ∈ runTrace pick f st, Inv G st' := by
  intro f
  induction f with
  | zero =>
    intro st _ st' hst'
    rw [runTrace] at hst'
    exact absurd hst' (List.not_mem_nil st')
  | succ f ih =>
    intro st h st' hst'
    rw [runTrace] at hst'
    split at hst'
    · exact absurd hst' (List.not_mem_nil st')
    · next hne =>
      rcases List.mem_cons.mp hst' with rfl | hst'
      · exact h
      · exact ih _ (Inv_sortStep hwf hc hp h hne) st' hst'

theorem runTrace_s_ne (pick : SortState α → Nat) :
    ∀ (f : Nat) (st : SortState α), ∀ st' ∈ runTrace pick f st, st'.s ≠ [] := by
  intro f
  induction f with
  | zero =>
    intro st st' hst'
    rw [runTrace] at hst'
    exact absurd hst' (List.not_mem_nil st')
  | succ f ih =>
    intro st st' hst'
    rw [runTrace] at hst'
    split at hst'
    · exact absurd hst' (List.not_mem_nil st')
    · next hne =>
      rcases List.mem_cons.mp hst' with rfl | hst'
      · exact hne
      · exact ih _ st' hst'

theorem sortRun_result_length (pick : SortState α → Nat) :
    ∀ (f : Nat) (st : SortState α), (sortRun pick f st).s ≠ [] →
      (sortRun pick f st).result.length = st.result.length + f := by
  intro f
  induction f with
  | zero => intro st _; rfl
  | succ f ih =>
    intro st h
    rw [sortRun] at h ⊢
    by_cases hse : st.s = []
    · rw [if_pos hse] at h
      exact absurd hse h
    · rw [if_neg hse] at h ⊢
      rw [ih _ h]
      have hstep : (sortStep pick st).result = st.result ++ [pick st] :=
        sortStepN_result st (pick st)
      rw [hstep]
      simp
      omega

theorem mem_of_nodup_bound_length {l : List Nat} {N : Nat} (hnd : l.Nodup)
    (hlt : ∀ i ∈ l, i < N) (hlen : l.length = N) : ∀ i < N, i ∈ l := by
  have hsub : l.toFinset ⊆ Finset.range N := by
    intro x hx
    exact Finset.mem_range.mpr (hlt x (List.mem_toFinset.mp hx))
  have hcard : (Finset.range N).card ≤ l.toFinset.card := by
    rw [List.toFinset_card_of_nodup hnd, hlen, Finset.card_range]
  have heq := Finset.eq_of_subset_of_card_le hsub hcard
  intro i hi
  have : i ∈ l.toFinset := by
    rw [heq]
    exact Finset.mem_range.mpr hi
  exact List.mem_toFinset.mp this

theorem length_eq_of_nodup_bound_mem {l : List Nat} {N : Nat} (hnd : l.Nodup)
    (hlt : ∀ i ∈ l, i < N) (hmem : ∀ i < N, i ∈ l) : l.length = N := by
  have heq : l.toFinset = Finset.range N := by
    apply Finset.Subset.antisymm
    · intro x hx
      exact Finset.mem_range.mpr (hlt x (List.mem_toFinset.mp hx))
    · intro x hx
      exact List.mem_toFinset.mpr (hmem x (Finset.mem_range.mp hx))
  have := List.toFinset_card_of_nodup hnd
  rw [heq, Finset.card_range] at this
  omega

/-- Fuel sufficiency: the loop's ready set is exhausted within
`G.length` iterations, which is exactly when the Rust `while` loop exits. -/
theorem sortRun_s_nil {G : List (Node α)} (hwf : WFheap G) (hc : ConsistentHeap G)
    {pick : SortState α → Nat} (hp : ValidPick pick) {st : SortState α}
    (hInv : Inv G st) (hres0 : st.result = []) :
    (sortRun pick G.length st).s = [] := by
  by_contra hne
  have hInvF : Inv G (sortRun pick G.length st) := Inv_sortRun hwf hc hp _ _ hInv
  have hlen := sortRun_result_length pick G.length st hne
  rw [hres0] at hlen
  simp at hlen
  have hall := mem_of_nodup_bound_length hInvF.res_nd hInvF.res_lt hlen
  obtain ⟨x, hx⟩ := List.exists_mem_of_ne_nil _ hne
  exact hInvF.s_res x hx (hall x (hInvF.s_lt x hx))

/-- In a finite set where every element has a predecessor inside the set,
some element lies on a cycle (chain construction plus pigeonhole). -/
theorem cycle_of_pred (E : Nat → Nat → Prop) (R : Finset Nat) (hne : R.Nonempty)
    (hpred : ∀ v ∈ R, ∃ u ∈ R, E u v) : ∃ v, Relation.TransGen E v v := by
  classical
  obtain ⟨v₀, hv₀⟩ := hne
  choose pred hpredR hpredE using hpred
  let f : Nat → { x // x ∈ R } := fun k =>
    Nat.rec ⟨v₀, hv₀⟩ (fun _ p => ⟨pred p.1 p.2, hpredR p.1 p.2⟩) k
  have hstep : ∀ k, E (f (k + 1)).1 (f k).1 := fun k => hpredE (f k).1 (f k).2
  have hchain : ∀ i d, Relation.TransGen E (f (i + d + 1)).1 (f i).1 := by
    intro i d
    induction d with
    | zero => exact Relation.TransGen.single (hstep i)
    | succ d ih => exact Relation.TransGen.head (hstep (i + d + 1)) ih
  have hmaps : ∀ k ∈ Finset.range (R.card + 1), (f k).1 ∈ R := fun k _ => (f k).2
  have hcard : R.card < (Finset.range (R.card + 1)).card := by simp
  obtain ⟨a, ha, b, hb, hab, hfeq⟩ :=
    Finset.exists_ne_map_eq_of_card_lt_of_maps_to hcard hmaps
  rcases Nat.lt_or_ge a b with hlt | hge
  · refine ⟨(f a).1, ?_⟩
    have hd : a + (b - a - 1) + 1 = b := by omega
    have := hchain a (b - a - 1)
    rw [hd] at this
    rw [← hfeq] at this
    exact this
  · have hlt : b < a := by omega
    refine ⟨(f b).1, ?_⟩
    have hd : b + (a - b - 1) + 1 = a := by omega
    have := hchain b (a - b - 1)
    rw [hd] at this
    rw [hfeq] at this
    exact this

/-- What a successful sort guarantees: the result is duplicate-free, lists
exactly the graph's nodes, and respects every original edge. -/
theorem sort_spec_of_some {g : DirectedGraph α} {pick : SortState α → Nat}
    (hwf : WF g) (hc : Consistent g) (hp : ValidPick pick) {l : List Nat}
    (hsome : topological_sort pick g = some l) :
    l.Nodup ∧ (∀ x ∈ l, x < g.nodes.length) ∧ (∀ i < g.nodes.length, i ∈ l) ∧
      l.length = g.nodes.length ∧
      (∀ u v, Edge g u v → u ∈ l ∧ v ∈ l ∧ idxOf u l < idxOf v l) := by
  have hInvF : Inv g.nodes (sortRun pick g.nodes.length (initState g)) :=
    Inv_sortRun hwf hc hp _ _ (Inv_initState g)
  have hsnil : (sortRun pick g.nodes.length (initState g)).s = [] :=
    sortRun_s_nil hwf hc hp (Inv_initState g) rfl
  unfold topological_sort at hsome
  by_cases hcheck : (List.range g.nodes.length).all
      (fun i =>
        (incomingOf (sortRun pick g.nodes.length (initState g)).nodes i).isEmpty) = true
  · rw [if_pos hcheck] at hsome
    have hl : l = (sortRun pick g.nodes.length (initState g)).result := by
      injection hsome with h
      exact h.symm
    subst hl
    have hempty : ∀ i < g.nodes.length,
        incomingOf (sortRun pick g.nodes.length (initState g)).nodes i = [] := by
      intro i hi
      have := List.all_eq_true.mp hcheck i (List.mem_range.mpr hi)
      exact List.isEmpty_iff.mp (by simpa using this)
    have hallmem : ∀ i < g.nodes.length,
        i ∈ (sortRun pick g.nodes.length (initState g)).result := by
      intro i hi
      by_contra hnot
      have := hInvF.complete i hi hnot (hempty i hi)
      rw [hsnil] at this
      exact absurd this (List.not_mem_nil i)
    refine ⟨hInvF.res_nd, hInvF.res_lt, hallmem,
      length_eq_of_nodup_bound_mem hInvF.res_nd hInvF.res_lt hallmem, ?_⟩
    intro u v huv
    have huN : u < g.nodes.length := lt_of_mem_outgoingOf huv
    have hvN : v < g.nodes.length := (hwf u huN).2 v huv
    obtain ⟨hu, hlt⟩ := hInvF.order u v huv (hallmem v hvN)
    exact ⟨hu, hallmem v hvN, hlt⟩
  · rw [if_neg hcheck] at hsome
    exact absurd hsome (by simp)

/-- On an acyclic well-formed graph the residual-edge check passes. -/
theorem check_true_of_acyclic {g : DirectedGraph α} {pick : SortState α → Nat}
    (hwf : WF g) (hc : Consistent g) (hp : ValidPick pick) (hac : Acyclic g) :
    (List.range g.nodes.length).all
      (fun i =>
        (incomingOf (sortRun pick g.nodes.length (initState g)).nodes i).isEmpty) = true := by
  classical
  by_contra hch
  have hInvF : Inv g.nodes (sortRun pick g.nodes.length (initState g)) :=
    Inv_sortRun hwf hc hp _ _ (Inv_initState g)
  have hsnil : (sortRun pick g.nodes.length (initState g)).s = [] :=
    sortRun_s_nil hwf hc hp (Inv_initState g) rfl
  rw [List.all_eq_true] at hch
  push_neg at hch
  obtain ⟨i, hiR, hinp⟩ := hch
  have hiN : i < g.nodes.length := List.mem_range.mp hiR
  have hine : incomingOf (sortRun pick g.nodes.length (initState g)).nodes i ≠ [] :=
    fun h => hinp (by simp [List.isEmpty_iff, h])
  have hresid : ∀ v, v < g.nodes.length →
      v ∉ (sortRun pick g.nodes.length (initState g)).result →
      incomingOf (sortRun pick g.nodes.length (initState g)).nodes v ≠ [] := by
    intro v hvN hv_not he
    have := hInvF.complete v hvN hv_not he
    rw [hsnil] at this
    exact absurd this (List.not_mem_nil v)
  have hi_not : i ∉ (sortRun pick g.nodes.length (initState g)).result := by
    intro hires
    obtain ⟨j, hj⟩ := List.exists_mem_of_ne_nil _ hine
    rw [hInvF.inc i] at hj
    have hj' := List.mem_filter.mp hj
    have hjG : j ∈ incomingOf g.nodes i := hj'.1
    have hj_not : j ∉ (sortRun pick g.nodes.length (initState g)).result := by
      simpa using hj'.2
    have hjN : j < g.nodes.length := (hwf i hiN).1 j hjG
    have hedge : i ∈ outgoingOf g.nodes j := (consistent_mem hc hjN hiN).mp hjG
    exact hj_not (hInvF.order j i hedge hires).1
  have hpred : ∀ v ∈ (Finset.range g.nodes.length).filter
      (fun x => x ∉ (sortRun pick g.nodes.length (initState g)).result),
      ∃ u ∈ (Finset.range g.nodes.length).filter
        (fun x => x ∉ (sortRun pick g.nodes.length (initState g)).result),
      Edge g u v := by
    intro v hv
    have hvN : v < g.nodes.length := Finset.mem_range.mp (Finset.mem_filter.mp hv).1
    have hv_not := (Finset.mem_filter.mp hv).2
    obtain ⟨u, hu⟩ := List.exists_mem_of_ne_nil _ (hresid v hvN hv_not)
    rw [hInvF.inc v] at hu
    have hu' := List.mem_filter.mp hu
    have huG : u ∈ incomingOf g.nodes v := hu'.1
    have hu_not : u ∉ (sortRun pick g.nodes.length (initState g)).result := by
      simpa using hu'.2
    have huN : u < g.nodes.length := (hwf v hvN).1 u huG
    have hedge : v ∈ outgoingOf g.nodes u := (consistent_mem hc huN hvN).mp huG
    exact ⟨u, Finset.mem_filter.mpr ⟨Finset.mem_range.mpr huN, hu_not⟩, hedge⟩
  obtain ⟨v, hcyc⟩ := cycle_of_pred (Edge g) _
    ⟨i, Finset.mem_filter.mpr ⟨Finset.mem_range.mpr hiN, hi_not⟩⟩ hpred
  exact hac v hcyc

/-- In a returned ordering, the position ordering extends along paths. -/
theorem transGen_idx {g : DirectedGraph α} {l : List Nat}
    (horder : ∀ u v, Edge g u v → u ∈ l ∧ v ∈ l ∧ idxOf u l < idxOf v l) :
    ∀ a b, Relation.TransGen (Edge g) a b → idxOf a l < idxOf b l := by
  intro a b h
  induction h with
  | single h1 => exact (horder _ _ h1).2.2
  | tail h1 h2 ih => exact lt_trans ih (horder _ _ h2).2.2

theorem headPick_valid : ValidPick (headPick (α := α)) := by
  intro st h
  unfold headPick
  cases hs : st.s with
  | nil => exact absurd hs h
  | cons a l => simp

theorem pick_forced {pick : SortState α → Nat} (hp : ValidPick pick) {st : SortState α}
    {n : Nat} (h : st.s = [n]) : pick st = n := by
  have := hp st (by rw [h]; simp)
  rw [h] at this
  simpa using this

theorem sortRun_succ (pick : SortState α → Nat) (f : Nat) (st : SortState α) :
    sortRun pick (f + 1) st =
      if st.s = [] then st else sortRun pick f (sortStep pick st) := rfl

theorem sortStep_eq (pick : SortState α → Nat) (st : SortState α) {n : Nat}
    (h : pick st = n) : sortStep pick st = sortStepN st n := by
  rw [sortStep, h]

theorem acyclic_of_rank (g : DirectedGraph α) (rank : Nat → Nat)
    (hr : ∀ u v, Edge g u v → rank u < rank v) : Acyclic g := by
  intro v hv
  have hmono : ∀ a b, Relation.TransGen (Edge g) a b → rank a < rank b := by
    intro a b h
    induction h with
    | single h1 => exact hr _ _ h1
    | tail h1 h2 ih => exact lt_trans ih (hr _ _ h2)
  exact lt_irrefl _ (hmono v v hv)

theorem get?_some_of_lt {l : List β} {i : Nat} (h : i < l.length) :
    ∃ b, l.get? i = some b := by
  cases hg : l.get? i with
  | none => exact absurd (List.get?_eq_none.mp hg) (by omega)
  | some b => exact ⟨b, rfl⟩

theorem chain2_acyclic : Acyclic chain2 := by
  apply acyclic_of_rank chain2 id
  intro u v h
  unfold Edge at h
  match u with
  | 0 =>
    rw [show outgoingOf chain2.nodes 0 = [1] by decide] at h
    have : v = 1 := by simpa using h
    subst this
    decide
  | 1 =>
    rw [show outgoingOf chain2.nodes 1 = [] by decide] at h
    exact absurd h (List.not_mem_nil v)
  | (u + 2) =>
    have hlen : chain2.nodes.length = 2 := by decide
    rw [outgoingOf_of_le (by omega)] at h
    exact absurd h (List.not_mem_nil v)

theorem cyc2_hasCycle : HasCycle cyc2 :=
  ⟨0, Relation.TransGen.head (b := 1) (by decide) (Relation.TransGen.single (by decide))⟩

/-! ### Every API-built graph is well formed and consistent -/

theorem add_edge_frame_aux (g : DirectedGraph α) (u v : Nat)
    (hu : u < g.nodes.length) (hv : v < g.nodes.length) :
    (add_edge g u v).nodes.length = g.nodes.length ∧
    (∀ w, dataOf (add_edge g u v).nodes w = dataOf g.nodes w) ∧
    (∀ w, incomingOf (add_edge g u v).nodes w =
      if w = v then incomingOf g.nodes w ++ [u] else incomingOf g.nodes w) ∧
    (∀ w, outgoingOf (add_edge g u v).nodes w =
      if w = u then outgoingOf g.nodes w ++ [v] else outgoingOf g.nodes w) := by
  have hnodes : (add_edge g u v).nodes =
      listModify (fun nd => { nd with incoming := nd.incoming ++ [u] }) v
        (listModify (fun nd => { nd with outgoing := nd.outgoing ++ [v] }) u g.nodes) :=
    rfl
  refine ⟨by rw [hnodes, length_listModify, length_listModify], ?_, ?_, ?_⟩
  · intro w
    rw [hnodes]
    unfold dataOf
    rcases eq_or_ne w v with rfl | hwv
    · rw [get?_listModify_self]
      rcases eq_or_ne w u with rfl | hwu
      · rw [get?_listModify_self]
        cases g.nodes.get? w <;> rfl
      · rw [get?_listModify_ne _ _ hwu]
        cases g.nodes.get? w <;> rfl
    · rw [get?_listModify_ne _ _ hwv]
      rcases eq_or_ne w u with rfl | hwu
      · rw [get?_listModify_self]
        cases g.nodes.get? w <;> rfl
      · rw [get?_listModify_ne _ _ hwu]
  · intro w
    rw [hnodes]
    unfold incomingOf
    rcases eq_or_ne w v with rfl | hwv
    · rw [if_pos rfl, get?_listModify_self]
      rcases eq_or_ne w u with rfl | hwu
      · obtain ⟨nd, hnd⟩ := get?_some_of_lt hv
        rw [get?_listModify_self, hnd]
        rfl
      · rw [get?_listModify_ne _ _ hwu]
        obtain ⟨nd, hnd⟩ := get?_some_of_lt hv
        rw [hnd]
        rfl
    · rw [if_neg hwv, get?_listModify_ne _ _ hwv]
      rcases eq_or_ne w u with rfl | hwu
      · rw [get?_listModify_self]
        cases g.nodes.get? w <;> rfl
      · rw [get?_listModify_ne _ _ hwu]
  · intro w
    rw [hnodes]
    unfold outgoingOf
    rcases eq_or_ne w v with rfl | hwv
    · rw [get?_listModify_self]
      rcases eq_or_ne w u with rfl | hwu
      · rw [if_pos rfl, get?_listModify_self]
        obtain ⟨nd, hnd⟩ := get?_some_of_lt hu
        rw [hnd]
        rfl
      · rw [if_neg (by omega : ¬ w = u), get?_listModify_ne _ _ hwu]
        cases g.nodes.get? w <;> rfl
    · rw [get?_listModify_ne _ _ hwv]
      rcases eq_or_ne w u with rfl | hwu
      · rw [if_pos rfl, get?_listModify_self]
        obtain ⟨nd, hnd⟩ := get?_some_of_lt hu
        rw [hnd]
        rfl
      · rw [if_neg hwu, get?_listModify_ne _ _ hwu]

theorem incomingOf_append_lt {nodes : List (Node α)} (tail : List (Node α)) {i : Nat}
    (h : i < nodes.length) : incomingOf (nodes ++ tail) i = incomingOf nodes i := by
  unfold incomingOf
  rw [List.get?_append h]

theorem outgoingOf_append_lt {nodes : List (Node α)} (tail : List (Node α)) {i : Nat}
    (h : i < nodes.length) : outgoingOf (nodes ++ tail) i = outgoingOf nodes i := by
  unfold outgoingOf
  rw [List.get?_append h]

theorem incomingOf_concat_self (nodes : List (Node α)) (nd : Node α) :
    incomingOf (nodes ++ [nd]) nodes.length = nd.incoming := by
  unfold incomingOf
  rw [List.get?_concat_length]
  rfl

theorem outgoingOf_concat_self (nodes : List (Node α)) (nd : Node α) :
    outgoingOf (nodes ++ [nd]) nodes.length = nd.outgoing := by
  unfold outgoingOf
  rw [List.get?_concat_length]
  rfl

theorem WF_emptyGraph : WF (emptyGraph α) := by
  intro i hi
  exact absurd hi (by simp [emptyGraph])

theorem Consistent_emptyGraph : Consistent (emptyGraph α) := by
  intro u hu
  exact absurd hu (by simp [emptyGraph])

theorem WF_add_node {g : DirectedGraph α} (hwf : WF g) (x : α) :
    WF (add_node g x).1 := by
  intro i hi
  have hl : (add_node g x).1.nodes = g.nodes ++ [Node.new x] := rfl
  rw [hl] at hi ⊢
  simp only [List.length_append, List.length_singleton] at hi
  rcases Nat.lt_or_ge i g.nodes.length with hlt | hge
  · rw [incomingOf_append_lt _ hlt, outgoingOf_append_lt _ hlt]
    obtain ⟨h1, h2⟩ := hwf i hlt
    constructor
    · intro j hj
      have := h1 j hj
      simp only [List.length_append, List.length_singleton]
      omega
    · intro j hj
      have := h2 j hj
      simp only [List.length_append, List.length_singleton]
      omega
  · have hieq : i = g.nodes.length := by omega
    subst hieq
    rw [incomingOf_concat_self, outgoingOf_concat_self]
    constructor
    · intro j hj
      exact absurd hj (List.not_mem_nil j)
    · intro j hj
      exact absurd hj (List.not_mem_nil j)

theorem Consistent_add_node {g : DirectedGraph α} (hwf : WF g) (hc : Consistent g)
    (x : α) : Consistent (add_node g x).1 := by
  intro u hu v hv
  have hl : (add_node g x).1.nodes = g.nodes ++ [Node.new x] := rfl
  rw [hl] at hu hv ⊢
  simp only [List.length_append, List.length_singleton] at hu hv
  have hcount_out : ∀ w, w < g.nodes.length →
      (outgoingOf g.nodes w).count g.nodes.length = 0 := by
    intro w hw
    apply List.count_eq_zero.mpr
    intro hmem
    exact absurd ((hwf w hw).2 _ hmem) (by omega)
  have hcount_in : ∀ w, w < g.nodes.length →
      (incomingOf g.nodes w).count g.nodes.length = 0 := by
    intro w hw
    apply List.count_eq_zero.mpr
    intro hmem
    exact absurd ((hwf w hw).1 _ hmem) (by omega)
  rcases Nat.lt_or_ge u g.nodes.length with hult | huge
  · rcases Nat.lt_or_ge v g.nodes.length with hvlt | hvge
    · rw [incomingOf_append_lt _ hvlt, outgoingOf_append_lt _ hult]
      exact hc u hult v hvlt
    · have hveq : v = g.nodes.length := by omega
      subst hveq
      rw [incomingOf_concat_self, outgoingOf_append_lt _ hult]
      show (outgoingOf g.nodes u).count g.nodes.length = List.count u []
      rw [hcount_out u hult]
      rfl
  · have hueq : u = g.nodes.length := by omega
    subst hueq
    rcases Nat.lt_or_ge v g.nodes.length with hvlt | hvge
    · rw [incomingOf_append_lt _ hvlt, outgoingOf_concat_self]
      show List.count v [] = (incomingOf g.nodes v).count g.nodes.length
      rw [hcount_in v hvlt]
      rfl
    · have hveq : v = g.nodes.length := by omega
      rw [hveq, incomingOf_concat_self, outgoingOf_concat_self]
      rfl

theorem WF_add_edge {g : DirectedGraph α} (hwf : WF g) {u v : Nat}
    (hu : u < g.nodes.length) (hv : v < g.nodes.length) :
    WF (add_edge g u v) := by
  obtain ⟨hlen, -, hinc, houtg⟩ := add_edge_frame_aux g u v hu hv
  intro i hi
  rw [hlen] at hi
  rw [hlen, hinc i, houtg i]
  obtain ⟨h1, h2⟩ := hwf i hi
  constructor
  · intro j hj
    split at hj
    · rcases List.mem_append.mp hj with hj | hj
      · exact h1 j hj
      · have : j = u := by simpa using hj
        omega
    · exact h1 j hj
  · intro j hj
    split at hj
    · rcases List.mem_append.mp hj with hj | hj
      · exact h2 j hj
      · have : j = v := by simpa using hj
        omega
    · exact h2 j hj

theorem Consistent_add_edge {g : DirectedGraph α} (hc : Consistent g) {u v : Nat}
    (hu : u < g.nodes.length) (hv : v < g.nodes.length) :
    Consistent (add_edge g u v) := by
  obtain ⟨hlen, -, hinc, houtg⟩ := add_edge_frame_aux g u v hu hv
  intro a ha b hb
  rw [hlen] at ha hb
  rw [hinc b, houtg a]
  rcases eq_or_ne a u with rfl | hau
  · rcases eq_or_ne b v with rfl | hbv
    · rw [if_pos rfl, if_pos rfl, List.count_append, List.count_append,
        List.count_singleton', List.count_singleton', if_pos rfl, if_pos rfl,
        hc a ha b hb]
    · rw [if_pos rfl, if_neg hbv, List.count_append, List.count_singleton',
        if_neg (by omega : ¬ v = b), hc a ha b hb]
      omega
  · rcases eq_or_ne b v with rfl | hbv
    · rw [if_neg hau, if_pos rfl, List.count_append, List.count_singleton',
        if_neg (by omega : ¬ u = a), hc a ha b hb]
      omega
    · rw [if_neg hau, if_neg hbv, hc a ha b hb]

/-- The hypotheses of the sort theorems hold for every graph the public API
can build. -/
theorem Built_WF_Consistent {g : DirectedGraph α} (h : Built g) :
    WF g ∧ Consistent g := by
  induction h with
  | empty => exact ⟨WF_emptyGraph, Consistent_emptyGraph⟩
  | node g x _ ih => exact ⟨WF_add_node ih.1 x, Consistent_add_node ih.1 ih.2 x⟩
  | edge g u v _ hu hv ih =>
    exact ⟨WF_add_edge ih.1 hu hv, Consistent_add_edge ih.2 hu hv⟩

/-! ### The claims -/

/-- C1: for every acyclic (well-formed, consistent) graph and every ready-set
iteration order, `topological_sort` returns `some` sequence that contains
every node of the graph exactly once — so its length equals the graph's node
count — and for every edge `u → v` of the original graph, `u` appears
strictly before `v` in the returned sequence. -/
theorem topological_sort_acyclic_correct (g : DirectedGraph α)
    (pick : SortState α → Nat) (hwf : WF g) (hc : Consistent g) (hac : Acyclic g)
    (hp : ValidPick pick) :
    ∃ l, topological_sort pick g = some l ∧ l.length = g.nodes.length ∧
      (∀ i < g.nodes.length, l.count i = 1) ∧
      (∀ u v, Edge g u v → u ∈ l ∧ v ∈ l ∧ idxOf u l < idxOf v l) := by
  have hcheck := check_true_of_acyclic hwf hc hp hac
  have hsome : topological_sort pick g =
      some (sortRun pick g.nodes.length (initState g)).result := by
    unfold topological_sort
    rw [if_pos hcheck]
  obtain ⟨hnd, hbound, hmem, hlen, horder⟩ := sort_spec_of_some hwf hc hp hsome
  exact ⟨_, hsome, hlen, fun i hi => List.count_eq_one_of_mem hnd (hmem i hi), horder⟩

/-- Witness for C1 at the concrete two-node chain `0 → 1` with the head
selection function. -/
theorem topological_sort_acyclic_correct_witness :
    ∃ l, topological_sort headPick chain2 = some l ∧ l.length = chain2.nodes.length ∧
      (∀ i < chain2.nodes.length, l.count i = 1) ∧
      (∀ u v, Edge chain2 u v → u ∈ l ∧ v ∈ l ∧ idxOf u l < idxOf v l) :=
  topological_sort_acyclic_correct chain2 headPick (by decide) (by decide)
    chain2_acyclic headPick_valid

/-- C2: for every (well-formed, consistent) graph containing at least one
directed cycle — including a single self-loop — and every iteration order,
`topological_sort` returns `none`; it never returns a partial ordering. -/
theorem topological_sort_cycle_none (g : DirectedGraph α)
    (pick : SortState α → Nat) (hwf : WF g) (hc : Consistent g) (hcyc : HasCycle g)
    (hp : ValidPick pick) : topological_sort pick g = none := by
  by_contra hne
  obtain ⟨l, hl⟩ := Option.ne_none_iff_exists'.mp hne
  obtain ⟨-, -, -, -, horder⟩ := sort_spec_of_some hwf hc hp hl
  obtain ⟨v, hv⟩ := hcyc
  exact lt_irrefl _ (transGen_idx horder v v hv)

/-- Witness for C2 at the concrete two-cycle `0 → 1 → 0` with the head
selection function. -/
theorem topological_sort_cycle_none_witness : topological_sort headPick cyc2 = none :=
  topological_sort_cycle_none cyc2 headPick (by decide) (by decide) cyc2_hasCycle
    headPick_valid

/-- C4: during `topological_sort` on a well-formed, consistent graph, at
every state the loop passes through, the result is duplicate-free, the ready
set is duplicate-free, and no member of the ready set was already output —
so a node enters the ready set at most once, never re-enters it after being
dequeued, and no node appears more than once in the returned sequence. -/
theorem sort_ready_no_reentry (g : DirectedGraph α) (pick : SortState α → Nat)
    (hwf : WF g) (hc : Consistent g) (hp : ValidPick pick) :
    (∀ st' ∈ runStates pick g.nodes.length (initState g),
      st'.result.Nodup ∧ st'.s.Nodup ∧ ∀ i ∈ st'.s, i ∉ st'.result) ∧
    (∀ l, topological_sort pick g = some l → l.Nodup) := by
  constructor
  · intro st' hst'
    have hInv := Inv_runStates hwf hc hp _ _ (Inv_initState g) st' hst'
    exact ⟨hInv.res_nd, hInv.s_nd, hInv.s_res⟩
  · intro l hl
    exact (sort_spec_of_some hwf hc hp hl).1

/-- Witness for C4 at the concrete diamond graph with the head selection
function. -/
theorem sort_ready_no_reentry_witness :
    (∀ st' ∈ runStates headPick diamond.nodes.length (initState diamond),
      st'.result.Nodup ∧ st'.s.Nodup ∧ ∀ i ∈ st'.s, i ∉ st'.result) ∧
    (∀ l, topological_sort headPick diamond = some l → l.Nodup) :=
  sort_ready_no_reentry diamond headPick (by decide) (by decide) headPick_valid

/-- C9: at every state at which the loop body runs (so after the guard
`!s.is_empty()` has passed, with `s` unmodified in between),
`s.iter().next()` yields `some` element of `s`; the `unwrap` never panics. -/
theorem ready_next_unwrap_ok (pick : SortState α → Nat) (hp : ValidPick pick)
    (f : Nat) (st : SortState α) :
    ∀ st' ∈ runTrace pick f st,
      iterNext pick st' = some (pick st') ∧ pick st' ∈ st'.s := by
  intro st' hst'
  have hne := runTrace_s_ne pick f st st' hst'
  refine ⟨?_, hp st' hne⟩
  unfold iterNext
  rw [if_neg (fun h => hne (List.isEmpty_iff.mp h))]

/-- Witness for C9 at the first loop-entry state of the diamond run with the
head selection function. -/
theorem ready_next_unwrap_ok_witness :
    iterNext headPick (initState diamond) = some (headPick (initState diamond)) ∧
      headPick (initState diamond) ∈ (initState diamond).s :=
  ready_next_unwrap_ok headPick headPick_valid diamond.nodes.length (initState diamond)
    (initState diamond) (by decide)

/-- C10: on a well-formed, consistent graph, whenever a node `n` is dequeued
by the loop, no entry of `n`'s outgoing list equals `n` itself — the inner
loop's `m.ptr.borrow_mut()` never aliases the outstanding shared borrow of
`n`, so no `RefCell` borrow conflict occurs: a self-loop node keeps itself
in its incoming list and never enters the ready set. -/
theorem no_borrow_conflict (g : DirectedGraph α) (pick : SortState α → Nat)
    (hwf : WF g) (hc : Consistent g) (hp : ValidPick pick) :
    ∀ st' ∈ runTrace pick g.nodes.length (initState g),
      ∀ m ∈ outgoingOf st'.nodes (pick st'), m ≠ pick st' := by
  intro st' hst' m hm hmn
  have hInv := Inv_runTrace hwf hc hp _ _ (Inv_initState g) st' hst'
  have hne := runTrace_s_ne pick _ _ st' hst'
  have hns : pick st' ∈ st'.s := hp st' hne
  have hnN : pick st' < g.nodes.length := hInv.s_lt _ hns
  have hincn : incomingOf st'.nodes (pick st') = [] := hInv.s_inc _ hns
  have hnres : pick st' ∉ st'.result := hInv.s_res _ hns
  rw [hInv.outg] at hm
  rw [hmn] at hm
  have h1 : pick st' ∈ incomingOf g.nodes (pick st') :=
    (consistent_mem hc hnN hnN).mpr hm
  have h2 : pick st' ∈ incomingOf st'.nodes (pick st') := by
    rw [hInv.inc]
    exact List.mem_filter.mpr ⟨h1, by simpa using hnres⟩
  rw [hincn] at h2
  exact absurd h2 (List.not_mem_nil _)

/-- Witness for C10 at the first loop-entry state of the diamond run with
the head selection function: both outgoing entries of the dequeued node `0`
differ from it. -/
theorem no_borrow_conflict_witness :
    (1 : Nat) ≠ headPick (initState diamond) ∧
      (2 : Nat) ≠ headPick (initState diamond) :=
  ⟨no_borrow_conflict diamond headPick (by decide) (by decide) headPick_valid
      (initState diamond) (by decide) 1 (by decide),
    no_borrow_conflict diamond headPick (by decide) (by decide) headPick_valid
      (initState diamond) (by decide) 2 (by decide)⟩

/-- C6: `add_node` appends a fresh node holding the given payload with empty
incoming and outgoing lists, increases the node count by exactly one, leaves
all previously created nodes unchanged, and returns a handle aliasing the
retained slot; it has no failure conditions (it is total). -/
theorem add_node_spec (g : DirectedGraph α) (x : α) :
    (add_node g x).1.nodes.length = g.nodes.length + 1 ∧
    (add_node g x).2 = g.nodes.length ∧
    (add_node g x).1.nodes.get? (add_node g x).2 = some (Node.new x) ∧
    (∀ i, i < g.nodes.length → (add_node g x).1.nodes.get? i = g.nodes.get? i) := by
  refine ⟨by simp [add_node], rfl, ?_, ?_⟩
  · show (g.nodes ++ [Node.new x]).get? g.nodes.length = some (Node.new x)
    exact List.get?_concat_length g.nodes (Node.new x)
  · intro i hi
    show (g.nodes ++ [Node.new x]).get? i = g.nodes.get? i
    exact List.get?_append hi

/-- Witness for C6 at a concrete graph and payload. -/
theorem add_node_spec_witness :
    (add_node pair2 7).1.nodes.length = pair2.nodes.length + 1 ∧
    (add_node pair2 7).2 = pair2.nodes.length ∧
    (add_node pair2 7).1.nodes.get? (add_node pair2 7).2 = some (Node.new 7) ∧
    (∀ i, i < pair2.nodes.length →
      (add_node pair2 7).1.nodes.get? i = pair2.nodes.get? i) :=
  add_node_spec pair2 7

/-- C7: for any two existing handles `u` and `v` (the self-loop case `u = v`
included), `add_edge` appends `v` to `u`'s outgoing list and `u` to `v`'s
incoming list, unconditionally and without failing, and changes nothing
else: the node count, every payload, every other incoming list and every
other outgoing list are unchanged. -/
theorem add_edge_frame (g : DirectedGraph α) (u v : Nat)
    (hu : u < g.nodes.length) (hv : v < g.nodes.length) :
    (add_edge g u v).nodes.length = g.nodes.length ∧
    (∀ w, dataOf (add_edge g u v).nodes w = dataOf g.nodes w) ∧
    (∀ w, incomingOf (add_edge g u v).nodes w =
      if w = v then incomingOf g.nodes w ++ [u] else incomingOf g.nodes w) ∧
    (∀ w, outgoingOf (add_edge g u v).nodes w =
      if w = u then outgoingOf g.nodes w ++ [v] else outgoingOf g.nodes w) :=
  add_edge_frame_aux g u v hu hv

/-- Witness for C7 at a concrete two-node graph, edge `0 → 1`. -/
theorem add_edge_frame_witness :
    (add_edge pair2 0 1).nodes.length = pair2.nodes.length ∧
    (∀ w, dataOf (add_edge pair2 0 1).nodes w = dataOf pair2.nodes w) ∧
    (∀ w, incomingOf (add_edge pair2 0 1).nodes w =
      if w = 1 then incomingOf pair2.nodes w ++ [0] else incomingOf pair2.nodes w) ∧
    (∀ w, outgoingOf (add_edge pair2 0 1).nodes w =
      if w = 0 then outgoingOf pair2.nodes w ++ [1] else outgoingOf pair2.nodes w) :=
  add_edge_frame pair2 0 1 (by decide) (by decide)

/-- C8: `NodeRef` equality and hashing are by identity of the underlying
allocation, never by payload: a clone of the handle returned by `add_node`
compares equal to it, while the handles of two independent `add_node` calls
with the identical payload compare unequal and feed different values to the
hasher. -/
theorem noderef_identity_semantics (g : DirectedGraph α) (x : α) :
    refEq (cloneRef (add_node g x).2) (add_node g x).2 = true ∧
    refEq (add_node g x).2 (add_node (add_node g x).1 x).2 = false ∧
    refHashInput (add_node g x).2 ≠ refHashInput (add_node (add_node g x).1 x).2 := by
  have h2 : (add_node (add_node g x).1 x).2 = g.nodes.length + 1 := by
    simp [add_node, cloneRef]
  refine ⟨by simp [refEq, cloneRef], ?_, ?_⟩
  · rw [h2]
    show refEq g.nodes.length (g.nodes.length + 1) = false
    simp [refEq]
  · rw [h2]
    show refHashInput g.nodes.length ≠ refHashInput (g.nodes.length + 1)
    simp [refHashInput]

/-- C3 counterexample: in the parallel-edge graph `par2` (edges `0 → 1`
twice), when node `0` is processed the FIRST `edgeStep` for the successor
`1` already removes BOTH occurrences of `0` from node `1`'s incoming list
(`remove_item` is `retain`-based), not exactly one: the incoming list is
empty after one edge occurrence, and the count of `0` drops from 2 to 0
rather than to 1. -/
theorem remove_item_not_single_occurrence :
    (incomingOf par2.nodes 1).count 0 = 2 ∧
    incomingOf (edgeStep 0 ⟨par2.nodes, [], [0]⟩ 1).nodes 1 = [] ∧
    ¬ ((incomingOf (edgeStep 0 ⟨par2.nodes, [], [0]⟩ 1).nodes 1).count 0 =
      (incomingOf par2.nodes 1).count 0 - 1) := by
  decide

/-- C3 amended: when a node `n` is processed, for each entry `m` of `n`'s
outgoing list the `remove_item` call removes ALL occurrences of `n` from
`m`'s incoming list at once, so the removal is per distinct predecessor,
not per edge occurrence: after the first occurrence is processed no
occurrence of `n` remains, and later occurrences of `m` are no-ops.  A node
with two parallel incoming edges from the same predecessor therefore has its
incoming list emptied during the first edge occurrence of that predecessor's
processing; the sort of the parallel-edge graph still succeeds with the
predecessor first. -/
theorem edge_removal_per_distinct_predecessor :
    (∀ (β : Type) (st : SortState β) (n m : Nat),
      incomingOf (edgeStep n st m).nodes m = remove_item (incomingOf st.nodes m) n ∧
      (incomingOf (edgeStep n st m).nodes m).count n = 0) ∧
    (∀ pick : SortState Nat → Nat, ValidPick pick →
      topological_sort pick par2 = some [0, 1]) := by
  constructor
  · intro β st n m
    rw [edgeStep_nodes, incomingOf_removeIncoming_self]
    exact ⟨rfl, count_remove_item_self _ _⟩
  · intro pick hp
    have e0 : pick (initState par2) = 0 := pick_forced hp (by decide)
    have h1 : sortStep pick (initState par2) =
        (⟨[⟨30, [], [1, 1]⟩, ⟨31, [], []⟩], [1], [0]⟩ : SortState Nat) := by
      rw [sortStep_eq pick _ e0]
      decide
    have e1 : pick (⟨[⟨30, [], [1, 1]⟩, ⟨31, [], []⟩], [1], [0]⟩ : SortState Nat) = 1 :=
      pick_forced hp (by decide)
    have hrun : sortRun pick 2 (initState par2) =
        (⟨[⟨30, [], [1, 1]⟩, ⟨31, [], []⟩], [], [0, 1]⟩ : SortState Nat) := by
      have s0 := sortRun_succ pick 1 (initState par2)
      rw [if_neg (by decide), h1] at s0
      have s1 := sortRun_succ pick 0
        (⟨[⟨30, [], [1, 1]⟩, ⟨31, [], []⟩], [1], [0]⟩ : SortState Nat)
      rw [if_neg (by decide), sortStep_eq pick _ e1] at s1
      calc sortRun pick 2 (initState par2)
          = sortRun pick 1 (⟨[⟨30, [], [1, 1]⟩, ⟨31, [], []⟩], [1], [0]⟩ : SortState Nat) :=
            s0
        _ = sortStepN (⟨[⟨30, [], [1, 1]⟩, ⟨31, [], []⟩], [1], [0]⟩ : SortState Nat) 1 :=
            s1
        _ = (⟨[⟨30, [], [1, 1]⟩, ⟨31, [], []⟩], [], [0, 1]⟩ : SortState Nat) := by decide
    unfold topological_sort
    rw [show par2.nodes.length = 2 by decide, hrun]
    decide

/-- Witness for the C3 amended theorem's quantified parts at a concrete
state and the head selection function. -/
theorem edge_removal_per_distinct_predecessor_witness :
    (incomingOf (edgeStep 0 ⟨par2.nodes, [], [0]⟩ 1).nodes 1 =
      remove_item (incomingOf par2.nodes 1) 0 ∧
      (incomingOf (edgeStep 0 ⟨par2.nodes, [], [0]⟩ 1).nodes 1).count 0 = 0) ∧
    topological_sort headPick par2 = some [0, 1] :=
  ⟨edge_removal_per_distinct_predecessor.1 Nat ⟨par2.nodes, [], [0]⟩ 0 1,
    edge_removal_per_distinct_predecessor.2 headPick headPick_valid⟩

/-- C5: on the diamond graph (`A→B`, `A→C`, `B→D`, `C→D`), for EVERY
ready-set iteration order the sort returns `some` sequence, and that
sequence is `A,B,C,D` or `A,C,B,D` (handles `[0,1,2,3]` or `[0,2,1,3]`): in
particular it has length 4, starts with `A` and ends with `D`, and no other
ordering is ever returned. -/
theorem diamond_sort_two_orders (pick : SortState Char → Nat) (hp : ValidPick pick) :
    ∃ l, topological_sort pick diamond = some l ∧
      (l = [0, 1, 2, 3] ∨ l = [0, 2, 1, 3]) := by
  have e0 : pick (initState diamond) = 0 := pick_forced hp (by decide)
  have h1 : sortStep pick (initState diamond) =
      (⟨[⟨'A', [], [1, 2]⟩, ⟨'B', [], [3]⟩, ⟨'C', [], [3]⟩, ⟨'D', [1, 2], []⟩],
        [1, 2], [0]⟩ : SortState Char) := by
    rw [sortStep_eq pick _ e0]
    decide
  have hmem : pick (⟨[⟨'A', [], [1, 2]⟩, ⟨'B', [], [3]⟩, ⟨'C', [], [3]⟩,
      ⟨'D', [1, 2], []⟩], [1, 2], [0]⟩ : SortState Char) ∈ ([1, 2] : List Nat) :=
    hp _ (by decide)
  simp only [List.mem_cons, List.not_mem_nil, or_false] at hmem
  rcases hmem with e1 | e1
  · have h2 : sortStep pick (⟨[⟨'A', [], [1, 2]⟩, ⟨'B', [], [3]⟩, ⟨'C', [], [3]⟩,
        ⟨'D', [1, 2], []⟩], [1, 2], [0]⟩ : SortState Char) =
        (⟨[⟨'A', [], [1, 2]⟩, ⟨'B', [], [3]⟩, ⟨'C', [], [3]⟩, ⟨'D', [2], []⟩],
          [2], [0, 1]⟩ : SortState Char) := by
      rw [sortStep_eq pick _ e1]
      decide
    have e2 : pick (⟨[⟨'A', [], [1, 2]⟩, ⟨'B', [], [3]⟩, ⟨'C', [], [3]⟩,
        ⟨'D', [2], []⟩], [2], [0, 1]⟩ : SortState Char) = 2 :=
      pick_forced hp (by decide)
    have h3 : sortStep pick (⟨[⟨'A', [], [1, 2]⟩, ⟨'B', [], [3]⟩, ⟨'C', [], [3]⟩,
        ⟨'D', [2], []⟩], [2], [0, 1]⟩ : SortState Char) =
        (⟨[⟨'A', [], [1, 2]⟩, ⟨'B', [], [3]⟩, ⟨'C', [], [3]⟩, ⟨'D', [], []⟩],
          [3], [0, 1, 2]⟩ : SortState Char) := by
      rw [sortStep_eq pick _ e2]
      decide
    have e3 : pick (⟨[⟨'A', [], [1, 2]⟩, ⟨'B', [], [3]⟩, ⟨'C', [], [3]⟩,
        ⟨'D', [], []⟩], [3], [0, 1, 2]⟩ : SortState Char) = 3 :=
      pick_forced hp (by decide)
    have hrun : sortRun pick 4 (initState diamond) =
        (⟨[⟨'A', [], [1, 2]⟩, ⟨'B', [], [3]⟩, ⟨'C', [], [3]⟩, ⟨'D', [], []⟩],
          [], [0, 1, 2, 3]⟩ : SortState Char) := by
      have s0 := sortRun_succ pick 3 (initState diamond)
      rw [if_neg (by decide), h1] at s0
      have s1 := sortRun_succ pick 2 (⟨[⟨'A', [], [1, 2]⟩, ⟨'B', [], [3]⟩,
        ⟨'C', [], [3]⟩, ⟨'D', [1, 2], []⟩], [1, 2], [0]⟩ : SortState Char)
      rw [if_neg (by decide), h2] at s1
      have s2 := sortRun_succ pick 1 (⟨[⟨'A', [], [1, 2]⟩, ⟨'B', [], [3]⟩,
        ⟨'C', [], [3]⟩, ⟨'D', [2], []⟩], [2], [0, 1]⟩ : SortState Char)
      rw [if_neg (by decide), h3] at s2
      have s3 := sortRun_succ pick 0 (⟨[⟨'A', [], [1, 2]⟩, ⟨'B', [], [3]⟩,
        ⟨'C', [], [3]⟩, ⟨'D', [], []⟩], [3], [0, 1, 2]⟩ : SortState Char)
      rw [if_neg (by decide), sortStep_eq pick _ e3] at s3
      calc sortRun pick 4 (initState diamond)
          = sortRun pick 3 (⟨[⟨'A', [], [1, 2]⟩, ⟨'B', [], [3]⟩, ⟨'C', [], [3]⟩,
              ⟨'D', [1, 2], []⟩], [1, 2], [0]⟩ : SortState Char) := s0
        _ = sortRun pick 2 (⟨[⟨'A', [], [1, 2]⟩, ⟨'B', [], [3]⟩, ⟨'C', [], [3]⟩,
              ⟨'D', [2], []⟩], [2], [0, 1]⟩ : SortState Char) := s1
        _ = sortRun pick 1 (⟨[⟨'A', [], [1, 2]⟩, ⟨'B', [], [3]⟩, ⟨'C', [], [3]⟩,
              ⟨'D', [], []⟩], [3], [0, 1, 2]⟩ : SortState Char) := s2
        _ = sortStepN (⟨[⟨'A', [], [1, 2]⟩, ⟨'B', [], [3]⟩, ⟨'C', [], [3]⟩,
              ⟨'D', [], []⟩], [3], [0, 1, 2]⟩ : SortState Char) 3 := s3
        _ = (⟨[⟨'A', [], [1, 2]⟩, ⟨'B', [], [3]⟩, ⟨'C', [], [3]⟩, ⟨'D', [], []⟩],
              [], [0, 1, 2, 3]⟩ : SortState Char) := by decide
    refine ⟨[0, 1, 2, 3], ?_, Or.inl rfl⟩
    unfold topological_sort
    rw [show diamond.nodes.length = 4 by decide, hrun]
    decide
  · have h2 : sortStep pick (⟨[⟨'A', [], [1, 2]⟩, ⟨'B', [], [3]⟩, ⟨'C', [], [3]⟩,
        ⟨'D', [1, 2], []⟩], [1, 2], [0]⟩ : SortState Char) =
        (⟨[⟨'A', [], [1, 2]⟩, ⟨'B', [], [3]⟩, ⟨'C', [], [3]⟩, ⟨'D', [1], []⟩],
          [1], [0, 2]⟩ : SortState Char) := by
      rw [sortStep_eq pick _ e1]
      decide
    have e2 : pick (⟨[⟨'A', [], [1, 2]⟩, ⟨'B', [], [3]⟩, ⟨'C', [], [3]⟩,
        ⟨'D', [1], []⟩], [1], [0, 2]⟩ : SortState Char) = 1 :=
      pick_forced hp (by decide)
    have h3 : sortStep pick (⟨[⟨'A', [], [1, 2]⟩, ⟨'B', [], [3]⟩, ⟨'C', [], [3]⟩,
        ⟨'D', [1], []⟩], [1], [0, 2]⟩ : SortState Char) =
        (⟨[⟨'A', [], [1, 2]⟩, ⟨'B', [], [3]⟩, ⟨'C', [], [3]⟩, ⟨'D', [], []⟩],
          [3], [0, 2, 1]⟩ : SortState Char) := by
      rw [sortStep_eq pick _ e2]
      decide
    have e3 : pick (⟨[⟨'A', [], [1, 2]⟩, ⟨'B', [], [3]⟩, ⟨'C', [], [3]⟩,
        ⟨'D', [], []⟩], [3], [0, 2, 1]⟩ : SortState Char) = 3 :=
      pick_forced hp (by decide)
    have hrun : sortRun pick 4 (initState diamond) =
        (⟨[⟨'A', [], [1, 2]⟩, ⟨'B', [], [3]⟩, ⟨'C', [], [3]⟩, ⟨'D', [], []⟩],
          [], [0, 2, 1, 3]⟩ : SortState Char) := by
      have s0 := sortRun_succ pick 3 (initState diamond)
      rw [if_neg (by decide), h1] at s0
      have s1 := sortRun_succ pick 2 (⟨[⟨'A', [], [1, 2]⟩, ⟨'B', [], [3]⟩,
        ⟨'C', [], [3]⟩, ⟨'D', [1, 2], []⟩], [1, 2], [0]⟩ : SortState Char)
      rw [if_neg (by decide), h2] at s1
      have s2 := sortRun_succ pick 1 (⟨[⟨'A', [], [1, 2]⟩, ⟨'B', [], [3]⟩,
        ⟨'C', [], [3]⟩, ⟨'D', [1], []⟩], [1], [0, 2]⟩ : SortState Char)
      rw [if_neg (by decide), h3] at s2
      have s3 := sortRun_succ pick 0 (⟨[⟨'A', [], [1, 2]⟩, ⟨'B', [], [3]⟩,
        ⟨'C', [], [3]⟩, ⟨'D', [], []⟩], [3], [0, 2, 1]⟩ : SortState Char)
      rw [if_neg (by decide), sortStep_eq pick _ e3] at s3
      calc sortRun pick 4 (initState diamond)
          = sortRun pick 3 (⟨[⟨'A', [], [1, 2]⟩, ⟨'B', [], [3]⟩, ⟨'C', [], [3]⟩,
              ⟨'D', [1, 2], []⟩], [1, 2], [0]⟩ : SortState Char) := s0
        _ = sortRun pick 2 (⟨[⟨'A', [], [1, 2]⟩, ⟨'B', [], [3]⟩, ⟨'C', [], [3]⟩,
              ⟨'D', [1], []⟩], [1], [0, 2]⟩ : SortState Char) := s1
        _ = sortRun pick 1 (⟨[⟨'A', [], [1, 2]⟩, ⟨'B', [], [3]⟩, ⟨'C', [], [3]⟩,
              ⟨'D', [], []⟩], [3], [0, 2, 1]⟩ : SortState Char) := s2
        _ = sortStepN (⟨[⟨'A', [], [1, 2]⟩, ⟨'B', [], [3]⟩, ⟨'C', [], [3]⟩,
              ⟨'D', [], []⟩], [3], [0, 2, 1]⟩ : SortState Char) 3 := s3
        _ = (⟨[⟨'A', [], [1, 2]⟩, ⟨'B', [], [3]⟩, ⟨'C', [], [3]⟩, ⟨'D', [], []⟩],
              [], [0, 2, 1, 3]⟩ : SortState Char) := by decide
    refine ⟨[0, 2, 1, 3], ?_, Or.inr rfl⟩
    unfold topological_sort
    rw [show diamond.nodes.length = 4 by decide, hrun]
    decide

/-- Witness for C5 with the head selection function. -/
theorem diamond_sort_two_orders_witness :
    ∃ l, topological_sort headPick diamond = some l ∧
      (l = [0, 1, 2, 3] ∨ l = [0, 2, 1, 3]) :=
  diamond_sort_two_orders headPick headPick_valid

end RustDag
